import Mathlib

/-!
Verification development for the google-trends-slack repository.

The JavaScript sources are shallowly embedded over `List Char` (one entry
per Unicode scalar value).  Pure helpers (`normalize`, `formatVolume`,
`volumeToNumber`, `pad`, `buildBlocks`) become Lean functions translated
line by line from the source; the stateful `main` of the Redis variant
(src/unnamed/part_000) becomes a pure function of the feed items and the
result of the one store read it performs.

Modelling conventions:
  * JS strings are `List Char`.
  * JS `Number` values are `Rat` (every value the verified claims reach is
    a finite decimal; NaN is modelled by `Option.none` at parse sites).
  * `String.prototype.toLowerCase` and Unicode NFD are modelled by finite
    character tables covering ASCII, the Greek alphabet and the accented
    characters exercised by the sources and the spec; characters outside
    the tables are left unchanged (which is also what the JS functions do
    to characters without case or decomposition).
  * `Number(string)` is modelled for the decimal-literal grammar (optional
    sign, digits, optional fraction); exponent/hex/Infinity forms are out
    of scope of every claim and parse to `none`.
-/

namespace GT

/-- A JS string, one entry per Unicode scalar value. -/
abbrev JStr := List Char

/-- String literal helper. -/
def lit (s : String) : JStr := s.toList

/-- The JS whitespace characters relevant to `trim` and `\s` (space, tab,
LF, VT, FF, CR, NBSP), identified by code point. -/
def wsChar (c : Char) : Bool :=
  c.toNat = 32 || c.toNat = 9 || c.toNat = 10 || c.toNat = 11 ||
  c.toNat = 12 || c.toNat = 13 || c.toNat = 160

/-- ASCII decimal digit. -/
def isDig (c : Char) : Bool := 48 ≤ c.toNat && c.toNat ≤ 57

/-- Association-list lookup (first match wins, like `Map.get` after the
last `Map.set` for our write-once tables). -/
def tget {κ α : Type} [DecidableEq κ] : List (κ × α) → κ → Option α
  | [], _ => none
  | (k, v) :: rest, c => if c = k then some v else tget rest c

/-- Lower-case table for `String.prototype.toLowerCase`, covering ASCII
letters and the plain Greek capitals that appear in the sources and the
spec.  Characters outside the table are unchanged. -/
def lowerTable : List (Char × Char) :=
  [('A', 'a'), ('B', 'b'), ('C', 'c'), ('D', 'd'), ('E', 'e'), ('F', 'f'),
   ('G', 'g'), ('H', 'h'), ('I', 'i'), ('J', 'j'), ('K', 'k'), ('L', 'l'),
   ('M', 'm'), ('N', 'n'), ('O', 'o'), ('P', 'p'), ('Q', 'q'), ('R', 'r'),
   ('S', 's'), ('T', 't'), ('U', 'u'), ('V', 'v'), ('W', 'w'), ('X', 'x'),
   ('Y', 'y'), ('Z', 'z'),
   ('Α', 'α'), ('Β', 'β'), ('Γ', 'γ'),
   ('Δ', 'δ'), ('Ε', 'ε'), ('Ζ', 'ζ'),
   ('Η', 'η'), ('Θ', 'θ'), ('Ι', 'ι'),
   ('Κ', 'κ'), ('Λ', 'λ'), ('Μ', 'μ'),
   ('Ν', 'ν'), ('Ξ', 'ξ'), ('Ο', 'ο'),
   ('Π', 'π'), ('Ρ', 'ρ'), ('Σ', 'σ'),
   ('Τ', 'τ'), ('Υ', 'υ'), ('Φ', 'φ'),
   ('Χ', 'χ'), ('Ψ', 'ψ'), ('Ω', 'ω')]

/-- `String.prototype.toLowerCase`, one character at a time. -/
def toLowerChar (c : Char) : Char :=
  match tget lowerTable c with
  | some l => l
  | none => c

/-- NFD decomposition table: precomposed accented letters (Greek tonos
letters, both cases, plus Latin e-acute) map to base letter + U+0301. -/
def nfdTable : List (Char × (Char × Char)) :=
  [('ά', ('α', '́')), ('έ', ('ε', '́')),
   ('ή', ('η', '́')), ('ί', ('ι', '́')),
   ('ό', ('ο', '́')), ('ύ', ('υ', '́')),
   ('ώ', ('ω', '́')),
   ('Ά', ('Α', '́')), ('Έ', ('Ε', '́')),
   ('Ή', ('Η', '́')), ('Ί', ('Ι', '́')),
   ('Ό', ('Ο', '́')), ('Ύ', ('Υ', '́')),
   ('Ώ', ('Ω', '́')),
   ('é', ('e', '́')), ('É', ('E', '́'))]

/-- `String.prototype.normalize("NFD")`, one character at a time. -/
def nfdChar (c : Char) : List Char :=
  match tget nfdTable c with
  | some bm => [bm.1, bm.2]
  | none => [c]

/-- `\p{Diacritic}` as matched by `.replace(/\p{Diacritic}/gu, "")`:
the combining diacritical marks block U+0300–U+036F. -/
def isMark (c : Char) : Bool := 768 ≤ c.toNat && c.toNat ≤ 879

/-- `s.normalize("NFD")` over a whole string. -/
def nfdExpand : List Char → List Char
  | [] => []
  | c :: rest => nfdChar c ++ nfdExpand rest

/-- Drop leading whitespace (the left half of `String.prototype.trim`). -/
def trimL : List Char → List Char
  | [] => []
  | c :: rest => if wsChar c then trimL rest else c :: rest

/-- Drop trailing whitespace (the right half of `String.prototype.trim`). -/
def trimR : List Char → List Char
  | [] => []
  | c :: rest => if trimR rest = [] ∧ wsChar c then [] else c :: trimR rest

/-- `String.prototype.trim`. -/
def jsTrim (s : List Char) : List Char := trimR (trimL s)

/-- `.replace(/\s+/g, " ")`: each maximal whitespace run becomes one
space. -/
def collapseWs : List Char → List Char
  | [] => []
  | [c] => if wsChar c then [' '] else [c]
  | c :: d :: rest =>
    if wsChar c && wsChar d then collapseWs (d :: rest)
    else (if wsChar c then ' ' else c) :: collapseWs (d :: rest)

/-- `.replace(/,/g, "")`. -/
def stripCommas (s : List Char) : List Char := s.filter (fun c => c ≠ ',')

/-- The character-level stage of `stripDiacritics`: NFD-decompose, drop
the combining marks, lower-case. -/
def nfdLower (s : List Char) : List Char :=
  ((nfdExpand s).filter (fun c => !isMark c)).map toLowerChar

/-- `normalize` from src/index.js (via `stripDiacritics`, lines 27–35):
NFD-decompose, strip diacritics, lower-case, trim, collapse whitespace. -/
def stripDiacritics (s : List Char) : List Char :=
  collapseWs (jsTrim (nfdLower s))

/-- A character the `nfdLower` stage leaves alone: NFD-stable, not a
combining mark, and lower-case-stable. -/
def stableChar (c : Char) : Bool :=
  decide (nfdChar c = [c]) && !isMark c && decide (toLowerChar c = c)

/-- Every whitespace character in the string is a single isolated space
(no two adjacent whitespace characters, and every whitespace character is
`' '`). -/
def wellSpaced : List Char → Bool
  | [] => true
  | [c] => !wsChar c || c = ' '
  | c :: d :: rest => (!wsChar c || (c = ' ' && !wsChar d)) && wellSpaced (d :: rest)

/-- The last character of a string, if any. -/
def lastChar : List Char → Option Char
  | [] => none
  | [c] => some c
  | _ :: d :: rest => lastChar (d :: rest)

/-- `const normalize = (s) => stripDiacritics(s)` (src/index.js line 35). -/
def normalize (s : JStr) : JStr := stripDiacritics s

/-- `normalize` applied to a possibly-null argument: `String(s || "")`. -/
def normalizeJ (s : Option JStr) : JStr := normalize (s.getD [])

/-- `normalize` from src/unnamed/part_000 line 23:
`(s || "").toLowerCase().trim().replace(/\s+/g, " ")` — no diacritic
stripping. -/
def normalizeP0 (s : JStr) : JStr := collapseWs (jsTrim (s.map toLowerChar))

/-! ### Decimal digits and number parsing/printing -/

/-- Fuel-driven helper for `natDigits` (structural recursion so the
kernel can evaluate it). -/
def natDigitsAux : Nat → Nat → List Char
  | 0, _ => []
  | fuel + 1, n =>
    if n < 10 then [Nat.digitChar n]
    else natDigitsAux fuel (n / 10) ++ [Nat.digitChar (n % 10)]

/-- The decimal digits of `n`, most significant first (JS integer
`toString`). -/
def natDigits (n : Nat) : List Char := natDigitsAux (n + 1) n

/-- Read a digit string back as a natural number. -/
def digitsToNat (ds : List Char) : Nat :=
  ds.foldl (fun a c => 10 * a + (c.toNat - 48)) 0

/-- JS `toString` for an integer Number value. -/
def intToDigits (z : Int) : List Char :=
  if z < 0 then '-' :: natDigits z.natAbs else natDigits z.toNat

/-- Split a string into its leading run of ASCII digits and the rest. -/
def splitDigits : List Char → List Char × List Char
  | [] => ([], [])
  | c :: rest =>
    if isDig c then
      let p := splitDigits rest
      (c :: p.1, p.2)
    else ([], c :: rest)

/-- Fractional value of a digit run read after a decimal point. -/
def fracOf (fp : List Char) : Rat :=
  (digitsToNat fp : Rat) / (10 : Rat) ^ fp.length

/-- Body of the JS decimal-literal grammar, applied to the split into
integer digits and remainder. -/
def jsDecLitAux : List Char × List Char → Option Rat
  | (ip, []) => if ip = [] then none else some (digitsToNat ip : Rat)
  | (ip, d :: fp) =>
    if d = '.' ∧ fp.all isDig ∧ (ip ≠ [] ∨ fp ≠ []) then
      some ((digitsToNat ip : Rat) + fracOf fp)
    else none

/-- A JS decimal literal (digits, `digits.digits`, `digits.`, `.digits`),
as accepted by `Number` after sign removal.  Exponent, hex and `Infinity`
forms are outside the scope of the claims and yield `none`. -/
def jsDecLit (s : List Char) : Option Rat :=
  jsDecLitAux (splitDigits s)

/-- `Number(string)`: trim, empty means `0`, optional sign, then a decimal
literal; anything else is NaN (`none`). -/
def jsNumCore : List Char → Option Rat
  | [] => some 0
  | c :: rest =>
    if c = '+' then jsDecLit rest
    else if c = '-' then (jsDecLit rest).map (fun q => -q)
    else jsDecLit (c :: rest)

/-- `Number` on a raw string. -/
def jsNumber (s : List Char) : Option Rat := jsNumCore (jsTrim s)

/-- `Math.round`: round half toward positive infinity. -/
def jsRound (q : Rat) : Int := ⌊q + 1 / 2⌋

/-- JS number-to-string, modelled exactly for integral values (the only
values the verified claims reach); a non-integral rational is rendered as
numerator, slash, denominator, standing in for JS's decimal expansion. -/
def ratToJsStr (q : Rat) : List Char :=
  if q.den = 1 then intToDigits q.num
  else intToDigits q.num ++ '/' :: natDigits q.den

/-! ### The volume parser (src/index.js lines 43–75, src/unnamed/part_001
lines 48–66 and 431–453, src/unnamed/part_002 lines 48–62) -/

/-- A heterogeneous upstream volume value: JS `null`/`undefined`, a
string, or a finite number. -/
inductive JVal where
  | null : JVal
  | str : JStr → JVal
  | num : Rat → JVal
deriving DecidableEq

/-- `String(v)` for the values a `JVal` can hold. -/
def jvalToStr : JVal → JStr
  | JVal.null => lit ("null")
  | JVal.str s => s
  | JVal.num n => ratToJsStr n

/-- Case-sensitive K/M/B letter test. -/
def isKMBcs (c : Char) : Bool := c = 'K' || c = 'M' || c = 'B'

/-- Helper for `endsKMB`, reading the reversed string. -/
def endsKMBrev : List Char → Bool
  | [] => false
  | [c] => if c = '+' then false else isKMBcs c
  | c :: d :: _ => if c = '+' then isKMBcs d else isKMBcs c

/-- `/[KMB]\+?$/.test(s)` (case-sensitive, as in `formatVolume`): the
string ends in K/M/B, optionally followed by one `+`. -/
def endsKMB (s : List Char) : Bool := endsKMBrev s.reverse

/-- Case-insensitive K/M/B letter test. -/
def isKMBci (c : Char) : Bool :=
  c = 'K' || c = 'M' || c = 'B' || c = 'k' || c = 'm' || c = 'b'

/-- Helper for `endsKMBci`, reading the reversed string. -/
def endsKMBcirev : List Char → Bool
  | [] => false
  | [c] => if c = '+' then false else isKMBci c
  | c :: d :: _ => if c = '+' then isKMBci d else isKMBci c

/-- `[KMB]\+?$` matched case-insensitively against the end of `s`. -/
def endsKMBci (s : List Char) : Bool := endsKMBcirev s.reverse

/-- Upper-case a K/M/B letter (`m[2].toUpperCase()`). -/
def upKMB (c : Char) : Char :=
  if c = 'k' then 'K' else if c = 'm' then 'M' else if c = 'b' then 'B' else c

/-- Body of the regex numeric-literal group, applied to the split into
integer digits and remainder. -/
def regexNumLitAux : List Char × List Char → Option Rat
  | (ip, []) => if ip = [] then none else some (digitsToNat ip : Rat)
  | (ip, d :: fp) =>
    if d = '.' ∧ ip ≠ [] ∧ fp ≠ [] ∧ fp.all isDig then
      some ((digitsToNat ip : Rat) + fracOf fp)
    else none

/-- The numeric-literal group `(\d+(?:\.\d+)?)` of the volume regex,
anchored to consume the whole input. -/
def regexNumLit (s : List Char) : Option Rat :=
  regexNumLitAux (splitDigits s)

/-- Helper for `parseKMB`, working on the reversed input after the
optional `+` has been removed. -/
def parseUnitRev : List Char → Option (Rat × Char)
  | c :: rest =>
    if isKMBci c then (regexNumLit rest.reverse).map (fun q => (q, upKMB c))
    else none
  | [] => none

/-- Helper for `parseKMB`, reading the reversed string: strip one
optional trailing `+`, then expect the unit letter. -/
def parseKMBrev : List Char → Option (Rat × Char)
  | c :: rest => if c = '+' then parseUnitRev rest else parseUnitRev (c :: rest)
  | [] => none

/-- `s.match(/^(\d+(?:\.\d+)?)([KMB])\+?$/i)`, returning the numeric value
and the upper-cased unit letter. -/
def parseKMB (s : List Char) : Option (Rat × Char) := parseKMBrev s.reverse

/-- The unknown-volume marker `"—"`. -/
def emDash : JStr := lit ("—")

/-- The multiplier for a (upper-cased) unit letter. -/
def unitVal (c : Char) : Rat :=
  if c = 'K' then 1000
  else if c = 'M' then 1000000
  else if c = 'B' then 1000000000
  else 0

/-- The numeric tail of `formatVolume` (src/index.js lines 47–54), applied
to `Number(String(v).replace(/,/g, ""))` (`none` = not finite) with the
original string for the NaN branch. -/
def fvCore (parsed : Option Rat) (orig : List Char) : List Char :=
  match parsed with
  | none => orig
  | some n =>
    if 1 ≤ n ∧ n < 1000 then intToDigits (jsRound n) ++ lit ("K+")
    else if 1000000000 ≤ n then intToDigits (jsRound (n / 1000000000)) ++ lit ("B+")
    else if 1000000 ≤ n then intToDigits (jsRound (n / 1000000)) ++ lit ("M+")
    else if 1000 ≤ n then intToDigits (jsRound (n / 1000)) ++ lit ("K+")
    else ratToJsStr n

/-- `formatVolume` from src/index.js lines 43–55 (identical in
src/unnamed/part_001): includes the `[1,1000) → K+` heuristic. -/
def formatVolume : JVal → List Char
  | JVal.null => emDash
  | JVal.str s => if endsKMB (jsTrim s) then jsTrim s else fvCore (jsNumber (stripCommas s)) s
  | JVal.num n => fvCore (some n) (ratToJsStr n)

/-- The numeric tail of the part_002 `formatVolume` (src/unnamed/part_002
lines 55–61): same as `fvCore` but without the `[1,1000)` heuristic. -/
def fvCoreP2 (parsed : Option Rat) (orig : List Char) : List Char :=
  match parsed with
  | none => orig
  | some n =>
    if 1000000000 ≤ n then intToDigits (jsRound (n / 1000000000)) ++ lit ("B+")
    else if 1000000 ≤ n then intToDigits (jsRound (n / 1000000)) ++ lit ("M+")
    else if 1000 ≤ n then intToDigits (jsRound (n / 1000)) ++ lit ("K+")
    else ratToJsStr n

/-- `formatVolume` from src/unnamed/part_002 lines 48–62 (no `[1,1000)`
heuristic). -/
def formatVolumeP2 : JVal → List Char
  | JVal.null => emDash
  | JVal.str s => if endsKMB (jsTrim s) then jsTrim s else fvCoreP2 (jsNumber (stripCommas s)) s
  | JVal.num n => fvCoreP2 (some n) (ratToJsStr n)

/-- `volumeToNumber` from src/index.js lines 57–75: parse a canonical
`<n><K|M|B>[+]` string, otherwise fall back to `Number` with the same
`[1,1000) → ×1000` heuristic. -/
def volumeToNumber : JVal → Rat
  | JVal.null => 0
  | v =>
    let s := jsTrim (jvalToStr v)
    match parseKMB s with
    | some pr => pr.1 * unitVal pr.2
    | none =>
      match jsNumber (stripCommas s) with
      | none => 0
      | some n => if 1 ≤ n ∧ n < 1000 then n * 1000 else n

/-! ### The message formatter of src/index.js (pad, buildBlocks) -/

/-- `pad` from src/index.js lines 37–40 (identical in src/unnamed/part_001
lines 168–171).  `String(str ?? "")` has already been applied; `s.slice(0,
len - 1)` agrees with `List.take (len - 1)` for the column widths `len ≥ 1`
the formatter uses. -/
def pad (s : JStr) (len : Nat) : JStr :=
  if len ≤ s.length then s.take (len - 1) ++ ['…']
  else s ++ List.replicate (len - s.length) ' '

/-- A merged display row (src/index.js main, lines 261–269). -/
structure Row where
  title : JStr
  sampleUrl : Option JStr
  volume : JStr
  volumeNum : Rat
deriving DecidableEq

/-- Enrichment value stored in `volMap` by `indexVolumeByTitle`
(src/index.js lines 183–186). -/
structure Enrich where
  volume : JStr
  volumeNum : Rat
deriving DecidableEq

/-- JS `||` on strings: the only falsy string is `""`. -/
def jsOrStr (s d : JStr) : JStr := if s = [] then d else s

/-- JS `||` with numeric left operand and `0` fallback (`v.volumeNum || 0`):
the falsy finite number is `0`. -/
def jsOrZero (n : Rat) : Rat := if n = 0 then 0 else n

/-- The merge loop of src/index.js main (lines 261–269): a left-outer join
of the RSS baseline with the enrichment map, keyed by normalized title.
`volMap` is an association list standing for the JS `Map`. -/
structure RssItem where
  title : JStr
  sampleUrl : Option JStr
deriving DecidableEq

/-- One row of the merge: `volMap.get(normalize(r.title)) || {}` then
field-wise `|| placeholder`. -/
def rowOf (volMap : List (JStr × Enrich)) (r : RssItem) : Row :=
  match tget volMap (normalize r.title) with
  | some v => ⟨r.title, r.sampleUrl, jsOrStr v.volume emDash, jsOrZero v.volumeNum⟩
  | none => ⟨r.title, r.sampleUrl, emDash, 0⟩

/-- `rows = rssTop.map((r) => ...)` from src/index.js lines 261–269. -/
def mergeRows (volMap : List (JStr × Enrich)) (rssTop : List RssItem) : List Row :=
  rssTop.map (rowOf volMap)

/-- A Slack block, carrying exactly the data buildBlocks puts in it. -/
inductive Block where
  | header : JStr → Block
  | context : List JStr → Block
  | divider : Block
  | section : JStr → Block
deriving DecidableEq

/-- One table line of the src/index.js buildBlocks (lines 218–223). -/
def tableLine (nowFull : JStr) (i : Nat) (r : Row) : JStr :=
  pad (natDigits (i + 1)) 3 ++ lit (" | ") ++
  pad r.title 30 ++ lit (" | ") ++
  pad nowFull 18 ++ lit (" | ") ++
  pad (jsOrStr r.volume emDash) 7

/-- One sample-URL line of the src/index.js buildBlocks (lines 225–229). -/
def sampleLine (i : Nat) (r : Row) : JStr :=
  match r.sampleUrl with
  | some u =>
    lit ("*") ++ natDigits (i + 1) ++ lit (".* <") ++ u ++ lit ("|") ++ r.title ++ lit (">")
  | none => lit ("*") ++ natDigits (i + 1) ++ lit (".* ") ++ r.title

/-- `buildBlocks` from src/index.js lines 193–253, as a function of the
rows and of the formatted clock string `nowFull` (the only value the
function reads beside its argument). -/
def buildBlocks (rows : List Row) (nowFull : JStr) : List Block :=
  let header :=
    pad (lit ("#")) 3 ++ lit (" | ") ++
    pad (lit ("Trend")) 30 ++ lit (" | ") ++
    pad (lit ("Time")) 18 ++ lit (" | ") ++
    pad (lit ("Volume")) 7
  let sep := List.replicate header.length '-'
  let lines := rows.enum.map (fun p => tableLine nowFull p.1 p.2)
  let sampleLines := rows.enum.map (fun p => sampleLine p.1 p.2)
  [Block.header (lit ("🇬🇷 Trending Now (GR) — Active")),
   Block.context [lit ("⏱️ ") ++ nowFull ++ lit (" • update κάθε 30’")],
   Block.divider,
   Block.section (lit ("```") ++ List.intercalate (lit ("\n")) (header :: sep :: lines) ++ lit ("```")),
   Block.section (lit ("*Sample URLs*\n") ++ List.intercalate (lit ("\n")) sampleLines)]

/-- The ambient state a buildBlocks invocation reads: the clock
(`new Date()`), in milliseconds. -/
structure Clock where
  nowMs : Int
deriving DecidableEq

/-- One invocation of buildBlocks: the runtime samples the clock, renders
it through the (fixed) `Intl.DateTimeFormat` formatter `fmt`, and runs the
pure body.  This is the complete observable behaviour of the function:
it writes no state. -/
inductive BuildBlocksCall (fmt : Int → JStr) : Clock → List Row → List Block → Prop where
  | callStep : ∀ c rows, BuildBlocksCall fmt c rows (buildBlocks rows (fmt c.nowMs))

/-! ### The diffing run of src/unnamed/part_000 (main, lines 73–91, with
its catch handler lines 93–99) -/

/-- A feed item as consumed by the part_000 main. -/
structure P0Item where
  title : JStr
  link : JStr
deriving DecidableEq

/-- An enriched item (part_000 main, lines 78–81). -/
structure P0Enriched where
  title : JStr
  link : JStr
  key : JStr
  isNew : Bool
deriving DecidableEq

/-- `{ title: it.title, link: it.link, key, isNew: !seen.has(key) }`. -/
def p0enrich (seen : Finset JStr) (it : P0Item) : P0Enriched :=
  ⟨it.title, it.link, normalizeP0 it.title, decide (normalizeP0 it.title ∉ seen)⟩

/-- `newOnes = enriched.filter((x) => x.isNew)`. -/
def p0newOnes (seen : Finset JStr) (current : List P0Item) : List P0Enriched :=
  (current.map (p0enrich seen)).filter (fun e => e.isNew)

/-- The anti-spam gate: notify iff `newOnes.length !== 0`. -/
def p0shouldNotify (seen : Finset JStr) (current : List P0Item) : Bool :=
  decide (p0newOnes seen current ≠ [])

/-- The blocks of the part_000 buildBlocks (lines 48–71), as a function of
the formatted clock string. -/
def p0buildBlocks (nowGr : JStr) (newCount : Nat) (items : List P0Enriched) : List Block :=
  [Block.header (lit ("🇬🇷 Google Trends (GR) — 🆕 ") ++ natDigits newCount ++ lit (" new")),
   Block.context [lit ("⏱️ ") ++ nowGr ++ lit (" (ώρα Ελλάδας)")],
   Block.divider] ++
  items.map (fun it =>
    Block.section ((if it.isNew then lit ("🆕 *NEW*") else lit ("•")) ++ lit (" *") ++
      it.title ++ lit ("*\n<") ++ it.link ++ lit ("|Άνοιγμα στο Google Trends>"))) ++
  [Block.divider]

/-- The failure payload posted by the catch handler (part_000 lines
94–97). -/
def p0failBlocks (e : JStr) : List Block :=
  [Block.section (lit ("⚠️ *Job failed*\n`") ++ e ++ lit ("`"))]

/-- The fallback text of the failure notification. -/
def p0failText : JStr := lit ("Google Trends job failed")

/-- What one part_000 run does, observably: either it stays silent, or it
posts one payload, or it fails and posts the failure payload.  `post` is
the seen set after the run's store writes. -/
inductive P0Run where
  | silent : Finset JStr → P0Run
  | posted : List Block → JStr → Finset JStr → P0Run
  | failed : List Block → JStr → P0Run
deriving DecidableEq

/-- One run of the part_000 main (lines 73–91) together with its catch
handler (lines 94–97), as a pure function of the feed items, the slice
limit `MAX_ITEMS`, the formatted clock, and the result of the one
`redis.smembers` read (`Except.error e` models the read throwing with
message `e`; the promise then rejects and the catch posts the failure
payload). -/
def p0main (nowGr : JStr) (maxItems : Nat) (storeRead : Except JStr (Finset JStr))
    (items : List P0Item) : P0Run :=
  match storeRead with
  | Except.error e => P0Run.failed (p0failBlocks e) p0failText
  | Except.ok seen =>
    if (p0newOnes seen (items.take maxItems)).length = 0 then P0Run.silent seen
    else
      P0Run.posted
        (p0buildBlocks nowGr (p0newOnes seen (items.take maxItems)).length
          ((items.take maxItems).map (p0enrich seen)))
        (lit ("Google Trends (GR) — ") ++
          natDigits (p0newOnes seen (items.take maxItems)).length ++ lit (" new"))
        (seen ∪ (((items.take maxItems).map (p0enrich seen)).map (fun e => e.key)).toFinset)

/-- How many times a run invokes the Notifier (`postToSlack`). -/
def notifierCalls : P0Run → Nat
  | P0Run.silent _ => 0
  | P0Run.posted _ _ _ => 1
  | P0Run.failed _ _ => 1

/-- Whether the run delivered the baseline item list (as opposed to
nothing or a failure notice). -/
def baselineSent : P0Run → Bool
  | P0Run.posted _ _ _ => true
  | _ => false

/-- The seen set as left in the store by the run, when the run reached the
store at all. -/
def postSeenOf : P0Run → Option (Finset JStr)
  | P0Run.silent s => some s
  | P0Run.posted _ _ s => some s
  | P0Run.failed _ _ => none

/-! ### Concrete inputs used by witnesses and counterexamples -/

/-- A first demo feed item. -/
def itemA : P0Item := ⟨lit ("alpha"), lit ("la")⟩

/-- A second demo feed item. -/
def itemB : P0Item := ⟨lit ("beta"), lit ("lb")⟩

/-- A demo feed with two items. -/
def p0demoItems : List P0Item := [itemA, itemB]

/-- A seen-set snapshot that already contains both demo keys. -/
def p0demoSeenAll : Finset JStr := {lit ("alpha"), lit ("beta")}

/-- A seen-set snapshot that contains only the first demo key. -/
def p0demoSeenA : Finset JStr := {lit ("alpha")}

/-- A frozen demo rendering of the clock. -/
def demoNow : JStr := lit ("01/01/25 00:00")

/-- A demo `Intl.DateTimeFormat` renderer. -/
def demoFmt : Int → JStr := fun _ => demoNow

/-- A demo clock reading. -/
def demoClock : Clock := ⟨0⟩

/-- A demo row list for the formatter. -/
def demoRows : List Row := [⟨lit ("x"), none, lit ("1K+"), 1000⟩]

/-- A demo baseline item for the join. -/
def demoRssItem : RssItem := ⟨lit ("q"), none⟩

end GT

namespace GT

/-! ### List helper lemmas -/

theorem filter_ne_nil_iff {α : Type} (p : α → Bool) (l : List α) :
    l.filter p ≠ [] ↔ ∃ a ∈ l, p a = true := by
  induction l with
  | nil => simp
  | cons c rest ih =>
    by_cases hc : p c = true
    · simp [List.filter_cons, hc]
    · simp only [List.filter_cons, hc, if_neg, Bool.false_eq_true, ite_false, ih,
        List.mem_cons]
      constructor
      · rintro ⟨a, ha, hp⟩; exact ⟨a, Or.inr ha, hp⟩
      · rintro ⟨a, ha | ha, hp⟩
        · exact absurd (ha ▸ hp) hc
        · exact ⟨a, ha, hp⟩

theorem rowOf_title (volMap : List (JStr × Enrich)) (r : RssItem) :
    (rowOf volMap r).title = r.title := by
  unfold rowOf
  cases tget volMap (normalize r.title) <;> rfl

/-- Unfolding equation for `p0main` on a successful store read. -/
theorem p0main_ok (nowGr : JStr) (maxItems : Nat) (seen : Finset JStr) (items : List P0Item) :
    p0main nowGr maxItems (Except.ok seen) items =
      if (p0newOnes seen (items.take maxItems)).length = 0 then P0Run.silent seen
      else
        P0Run.posted
          (p0buildBlocks nowGr (p0newOnes seen (items.take maxItems)).length
            ((items.take maxItems).map (p0enrich seen)))
          (lit ("Google Trends (GR) — ") ++
            natDigits (p0newOnes seen (items.take maxItems)).length ++ lit (" new"))
          (seen ∪ (((items.take maxItems).map (p0enrich seen)).map (fun e => e.key)).toFinset) :=
  rfl

/-! ### Decimal digit lemmas -/

theorem natDigitsAux_fuel : ∀ (f1 f2 n : Nat), n < f1 → n < f2 →
    natDigitsAux f1 n = natDigitsAux f2 n := by
  intro f1
  induction f1 with
  | zero => intro f2 n h _; omega
  | succ g ih =>
    intro f2 n h1 h2
    cases f2 with
    | zero => omega
    | succ k =>
      show natDigitsAux (g + 1) n = natDigitsAux (k + 1) n
      unfold natDigitsAux
      by_cases hn : n < 10
      · rw [if_pos hn, if_pos hn]
      · rw [if_neg hn, if_neg hn]
        have hd : n / 10 < n := Nat.div_lt_self (by omega) (by omega)
        rw [ih k (n / 10) (by omega) (by omega)]

/-- The intended recursion equation for `natDigits`. -/
theorem natDigits_eq (n : Nat) : natDigits n =
    if n < 10 then [Nat.digitChar n]
    else natDigits (n / 10) ++ [Nat.digitChar (n % 10)] := by
  show natDigitsAux (n + 1) n = _
  unfold natDigitsAux
  by_cases hn : n < 10
  · rw [if_pos hn, if_pos hn]
  · rw [if_neg hn, if_neg hn]
    have hd : n / 10 < n := Nat.div_lt_self (by omega) (by omega)
    unfold natDigits
    rw [natDigitsAux_fuel n (n / 10 + 1) (n / 10) (by omega) (by omega)]

theorem digitChar_toNat {d : Nat} (h : d < 10) : (Nat.digitChar d).toNat = 48 + d := by
  interval_cases d <;> rfl

theorem isDig_digitChar {d : Nat} (h : d < 10) : isDig (Nat.digitChar d) = true := by
  interval_cases d <;> rfl

theorem natDigits_ne_nil (n : Nat) : natDigits n ≠ [] := by
  rw [natDigits_eq]
  by_cases hn : n < 10
  · rw [if_pos hn]; simp
  · rw [if_neg hn]; simp

theorem natDigits_all_dig (n : Nat) : ∀ c ∈ natDigits n, isDig c = true := by
  induction n using Nat.strong_induction_on with
  | _ n ih =>
    rw [natDigits_eq]
    by_cases hn : n < 10
    · rw [if_pos hn]
      intro c hc
      rw [List.mem_singleton] at hc
      exact hc ▸ isDig_digitChar hn
    · rw [if_neg hn]
      intro c hc
      rcases List.mem_append.mp hc with h | h
      · exact ih (n / 10) (Nat.div_lt_self (by omega) (by omega)) c h
      · rw [List.mem_singleton] at h
        exact h ▸ isDig_digitChar (Nat.mod_lt n (by omega))

theorem digitsToNat_append_digit (xs : List Char) (c : Char) :
    digitsToNat (xs ++ [c]) = 10 * digitsToNat xs + (c.toNat - 48) := by
  unfold digitsToNat
  rw [List.foldl_append]
  rfl

theorem digitsToNat_natDigits (n : Nat) : digitsToNat (natDigits n) = n := by
  induction n using Nat.strong_induction_on with
  | _ n ih =>
    rw [natDigits_eq]
    by_cases hn : n < 10
    · rw [if_pos hn]
      show 10 * 0 + ((Nat.digitChar n).toNat - 48) = n
      rw [digitChar_toNat hn]
      omega
    · rw [if_neg hn, digitsToNat_append_digit,
        ih (n / 10) (Nat.div_lt_self (by omega) (by omega)),
        digitChar_toNat (Nat.mod_lt n (by omega))]
      omega

/-! ### Trim and whitespace lemmas -/

theorem wsChar_false_of_isDig {c : Char} (h : isDig c = true) : wsChar c = false := by
  unfold isDig at h
  unfold wsChar
  simp only [Bool.and_eq_true, decide_eq_true_eq] at h
  simp only [Bool.or_eq_false_iff, decide_eq_false_iff_not]
  omega

theorem trimL_cons (c : Char) (rest : List Char) :
    trimL (c :: rest) = if wsChar c = true then trimL rest else c :: rest := rfl

theorem trimR_cons (c : Char) (rest : List Char) :
    trimR (c :: rest) = if trimR rest = [] ∧ wsChar c = true then [] else c :: trimR rest := rfl

theorem trimL_all {s : List Char} (h : ∀ c ∈ s, wsChar c = false) : trimL s = s := by
  cases s with
  | nil => rfl
  | cons c rest =>
    rw [trimL_cons, if_neg (by rw [h c (List.mem_cons_self c rest)]; simp)]

theorem trimR_all {s : List Char} (h : ∀ c ∈ s, wsChar c = false) : trimR s = s := by
  induction s with
  | nil => rfl
  | cons c rest ih =>
    rw [trimR_cons, ih (fun d hd => h d (List.mem_cons_of_mem c hd)),
      if_neg (fun hc => by rw [h c (List.mem_cons_self c rest)] at hc; exact absurd hc.2 (by simp))]

theorem jsTrim_all {s : List Char} (h : ∀ c ∈ s, wsChar c = false) : jsTrim s = s := by
  unfold jsTrim
  rw [trimL_all h, trimR_all h]

theorem trimL_trimR_comm : ∀ s : List Char, trimL (trimR s) = trimR (trimL s) := by
  intro s
  induction s with
  | nil => rfl
  | cons c rest ih =>
    by_cases hw : wsChar c = true
    · by_cases hr : trimR rest = []
      · rw [trimR_cons, if_pos ⟨hr, hw⟩, trimL_cons, if_pos hw, ← ih, hr]
      · rw [trimR_cons, if_neg (fun hc => hr hc.1), trimL_cons, if_pos hw,
          trimL_cons, if_pos hw, ← ih]
    · rw [trimR_cons, if_neg (fun hc => hw hc.2), trimL_cons, if_neg hw,
        trimL_cons, if_neg hw, trimR_cons, if_neg (fun hc => hw hc.2)]

theorem trimL_filter (p : Char → Bool) (hws : ∀ c, wsChar c = true → p c = true) :
    ∀ s : List Char, trimL ((trimL s).filter p) = trimL (s.filter p) := by
  intro s
  induction s with
  | nil => rfl
  | cons c rest ih =>
    by_cases hw : wsChar c = true
    · rw [trimL_cons, if_pos hw, List.filter_cons, if_pos (hws c hw), trimL_cons,
        if_pos hw, ih]
    · rw [trimL_cons, if_neg hw]

theorem trimR_filter (p : Char → Bool) (hws : ∀ c, wsChar c = true → p c = true) :
    ∀ s : List Char, trimR ((trimR s).filter p) = trimR (s.filter p) := by
  intro s
  induction s with
  | nil => rfl
  | cons c rest ih =>
    by_cases hcr : trimR rest = [] ∧ wsChar c = true
    · have h4 : trimR (rest.filter p) = [] := by
        rw [← ih, hcr.1]
        rfl
      rw [trimR_cons, if_pos hcr, List.filter_cons, if_pos (hws c hcr.2), trimR_cons,
        if_pos ⟨h4, hcr.2⟩]
      rfl
    · rw [trimR_cons, if_neg hcr]
      by_cases hp : p c = true
      · rw [List.filter_cons, if_pos hp, List.filter_cons, if_pos hp, trimR_cons,
          trimR_cons, ih]
      · rw [List.filter_cons, if_neg hp, List.filter_cons, if_neg hp, ih]

theorem jsTrim_filter (p : Char → Bool) (hws : ∀ c, wsChar c = true → p c = true)
    (s : List Char) : jsTrim ((jsTrim s).filter p) = jsTrim (s.filter p) := by
  unfold jsTrim
  calc trimR (trimL ((trimR (trimL s)).filter p))
      = trimL (trimR ((trimR (trimL s)).filter p)) := (trimL_trimR_comm _).symm
    _ = trimL (trimR ((trimL s).filter p)) := by rw [trimR_filter p hws (trimL s)]
    _ = trimR (trimL ((trimL s).filter p)) := trimL_trimR_comm _
    _ = trimR (trimL (s.filter p)) := by rw [trimL_filter p hws s]

theorem stripCommas_wsOk : ∀ c : Char, wsChar c = true → decide (c ≠ ',') = true := by
  intro c h
  simp only [ne_eq, decide_not, Bool.not_eq_true', decide_eq_false_iff_not]
  intro hc
  subst hc
  exact absurd h (by decide)

theorem jsNumber_stripCommas_jsTrim (s : List Char) :
    jsNumber (stripCommas (jsTrim s)) = jsNumber (stripCommas s) := by
  unfold jsNumber stripCommas
  rw [jsTrim_filter _ stripCommas_wsOk s]

/-! ### Volume parser lemmas -/

theorem splitDigits_cons (c : Char) (rest : List Char) :
    splitDigits (c :: rest) =
      if isDig c = true then (c :: (splitDigits rest).1, (splitDigits rest).2)
      else ([], c :: rest) := rfl

theorem splitDigits_all {s : List Char} (h : ∀ c ∈ s, isDig c = true) :
    splitDigits s = (s, []) := by
  induction s with
  | nil => rfl
  | cons c rest ih =>
    rw [splitDigits_cons, if_pos (h c (List.mem_cons_self c rest)),
      ih (fun d hd => h d (List.mem_cons_of_mem c hd))]

theorem regexNumLit_natDigits (m : Nat) : regexNumLit (natDigits m) = some (m : Rat) := by
  unfold regexNumLit
  rw [splitDigits_all (natDigits_all_dig m)]
  show (if natDigits m = [] then none else some (digitsToNat (natDigits m) : Rat)) = _
  rw [if_neg (natDigits_ne_nil m), digitsToNat_natDigits]

theorem parseUnitRev_cons (c : Char) (rest : List Char) :
    parseUnitRev (c :: rest) =
      if isKMBci c = true then (regexNumLit rest.reverse).map (fun q => (q, upKMB c))
      else none := rfl

theorem parseKMB_canonical (m : Nat) (u : Char) (hu : u = 'K' ∨ u = 'M' ∨ u = 'B') :
    parseKMB (natDigits m ++ [u, '+']) = some ((m : Rat), u) := by
  unfold parseKMB
  rw [show (natDigits m ++ [u, '+']).reverse = '+' :: u :: (natDigits m).reverse by simp]
  show (if ('+' : Char) = '+' then parseUnitRev (u :: (natDigits m).reverse)
    else parseUnitRev ('+' :: u :: (natDigits m).reverse)) = _
  rw [if_pos rfl, parseUnitRev_cons,
    if_pos (by rcases hu with h | h | h <;> subst h <;> decide),
    List.reverse_reverse, regexNumLit_natDigits]
  have hup : upKMB u = u := by rcases hu with h | h | h <;> subst h <;> decide
  rw [Option.map_some', hup]

theorem isKMBcs_false_of_ci {c : Char} (h : isKMBci c = false) : isKMBcs c = false := by
  unfold isKMBci at h
  unfold isKMBcs
  simp only [Bool.or_eq_false_iff] at h ⊢
  exact h.1.1.1

theorem endsKMB_false_of_ci {s : List Char} (h : endsKMBci s = false) :
    endsKMB s = false := by
  unfold endsKMBci at h
  unfold endsKMB
  cases hrev : s.reverse with
  | nil => rfl
  | cons c rest =>
    rw [hrev] at h
    cases rest with
    | nil =>
      show (if c = '+' then false else isKMBcs c) = false
      by_cases hc : c = '+'
      · rw [if_pos hc]
      · rw [if_neg hc]
        rw [show endsKMBcirev [c] = if c = '+' then false else isKMBci c from rfl,
          if_neg hc] at h
        exact isKMBcs_false_of_ci h
    | cons d tl =>
      show (if c = '+' then isKMBcs d else isKMBcs c) = false
      rw [show endsKMBcirev (c :: d :: tl) = if c = '+' then isKMBci d else isKMBci c
        from rfl] at h
      by_cases hc : c = '+'
      · rw [if_pos hc]
        rw [if_pos hc] at h
        exact isKMBcs_false_of_ci h
      · rw [if_neg hc]
        rw [if_neg hc] at h
        exact isKMBcs_false_of_ci h

theorem parseUnitRev_none_of_not_ci {t : List Char}
    (h : ∀ d tl, t = d :: tl → isKMBci d = false) : parseUnitRev t = none := by
  cases t with
  | nil => rfl
  | cons d tl =>
    rw [parseUnitRev_cons, if_neg (by rw [h d tl rfl]; simp)]

theorem parseKMB_none_of_endsKMBci_false {s : List Char} (h : endsKMBci s = false) :
    parseKMB s = none := by
  unfold endsKMBci at h
  unfold parseKMB
  cases hrev : s.reverse with
  | nil => rfl
  | cons c rest =>
    rw [hrev] at h
    show (if c = '+' then parseUnitRev rest else parseUnitRev (c :: rest)) = none
    cases rest with
    | nil =>
      rw [show endsKMBcirev [c] = if c = '+' then false else isKMBci c from rfl] at h
      by_cases hc : c = '+'
      · rw [if_pos hc]; rfl
      · rw [if_neg hc]
        rw [if_neg hc] at h
        rw [parseUnitRev_cons, if_neg (by rw [h]; simp)]
    | cons d tl =>
      rw [show endsKMBcirev (c :: d :: tl) = if c = '+' then isKMBci d else isKMBci c
        from rfl] at h
      by_cases hc : c = '+'
      · rw [if_pos hc]
        rw [if_pos hc] at h
        exact parseUnitRev_none_of_not_ci (fun e tl2 het => by
          cases het
          exact h)
      · rw [if_neg hc]
        rw [if_neg hc] at h
        exact parseUnitRev_none_of_not_ci (fun e tl2 het => by
          cases het
          exact h)

/-! ### Equation lemmas for the volume functions -/

theorem fvCore_some (n : Rat) (orig : List Char) :
    fvCore (some n) orig =
      if 1 ≤ n ∧ n < 1000 then intToDigits (jsRound n) ++ lit ("K+")
      else if 1000000000 ≤ n then intToDigits (jsRound (n / 1000000000)) ++ lit ("B+")
      else if 1000000 ≤ n then intToDigits (jsRound (n / 1000000)) ++ lit ("M+")
      else if 1000 ≤ n then intToDigits (jsRound (n / 1000)) ++ lit ("K+")
      else ratToJsStr n := rfl

theorem fvCore_none (orig : List Char) : fvCore none orig = orig := rfl

theorem formatVolume_num (n : Rat) :
    formatVolume (JVal.num n) = fvCore (some n) (ratToJsStr n) := rfl

theorem formatVolume_str (s : JStr) :
    formatVolume (JVal.str s) =
      if endsKMB (jsTrim s) = true then jsTrim s
      else fvCore (jsNumber (stripCommas s)) s := rfl

theorem volumeToNumber_str (s : JStr) :
    volumeToNumber (JVal.str s) =
      match parseKMB (jsTrim s) with
      | some pr => pr.1 * unitVal pr.2
      | none =>
        match jsNumber (stripCommas (jsTrim s)) with
        | none => 0
        | some n => if 1 ≤ n ∧ n < 1000 then n * 1000 else n := rfl

theorem volumeToNumber_canonical (m : Nat) (u : Char)
    (hu : u = 'K' ∨ u = 'M' ∨ u = 'B') :
    volumeToNumber (JVal.str (natDigits m ++ [u, '+'])) = (m : Rat) * unitVal u := by
  have hws : ∀ c ∈ natDigits m ++ [u, '+'], wsChar c = false := by
    intro c hc
    rcases List.mem_append.mp hc with h | h
    · exact wsChar_false_of_isDig (natDigits_all_dig m c h)
    · have : c = u ∨ c = '+' := by simpa using h
      rcases this with h' | h'
      · rcases hu with h2 | h2 | h2 <;> rw [h', h2] <;> decide
      · rw [h']; decide
  rw [volumeToNumber_str, jsTrim_all hws, parseKMB_canonical m u hu]

theorem jsRound_natCast (x : Nat) : jsRound (x : Rat) = (x : Int) := by
  unfold jsRound
  rw [Int.floor_eq_iff]
  constructor
  · push_cast; linarith
  · push_cast; linarith

theorem jsRound_pos {q : Rat} (h : 1 ≤ q) : 1 ≤ jsRound q := by
  unfold jsRound
  rw [Int.le_floor]
  push_cast
  linarith

theorem intToDigits_nonneg {z : Int} (h : 0 ≤ z) : intToDigits z = natDigits z.toNat := by
  unfold intToDigits
  rw [if_neg (by omega)]

theorem volumeToNumber_intToDigits (r : Int) (h : 0 ≤ r) (u : Char)
    (hu : u = 'K' ∨ u = 'M' ∨ u = 'B') :
    volumeToNumber (JVal.str (intToDigits r ++ [u, '+'])) = (r : Rat) * unitVal u := by
  rw [intToDigits_nonneg h, volumeToNumber_canonical r.toNat u hu,
    show ((r.toNat : Nat) : Rat) = (r : Rat) by rw [← Int.cast_natCast, Int.toNat_of_nonneg h]]

/-! ### Claim C4 (corrected) -/

/-- Counterexample to claim C4 as stated: the part_002 `formatVolume`
(also cited by the claim) has no `[1,1000)` heuristic and renders the raw
value 500 as `"500"`, not `"500K+"`. -/
theorem formatVolumeP2_no_heuristic :
    formatVolumeP2 (JVal.num 500) = lit ("500")
    ∧ formatVolumeP2 (JVal.num 500) ≠ lit ("500K+") := by
  constructor
  · with_unfolding_all decide
  · with_unfolding_all decide

/-- Claim C4 as amended: for the `formatVolume` of src/index.js (and
part_001) all the canonical renderings hold — `formatVolume(500) ==
"500K+"`, `formatVolume(1500) == "2K+"`, `formatVolume("12,345") ==
"12K+"`, `formatVolume(null) == "—"`, and every numeric raw value in
`[1, 1000)` renders as the rounded value suffixed with `"K+"`; the
part_002 variant lacks the heuristic and renders 500 as `"500"`. -/
theorem formatVolume_canonical :
    formatVolume (JVal.num 500) = lit ("500K+")
    ∧ formatVolume (JVal.num 1500) = lit ("2K+")
    ∧ formatVolume (JVal.str (lit ("12,345"))) = lit ("12K+")
    ∧ formatVolume JVal.null = emDash
    ∧ ∀ q : Rat, 1 ≤ q → q < 1000 →
        formatVolume (JVal.num q) = intToDigits (jsRound q) ++ lit ("K+") := by
  refine ⟨by with_unfolding_all decide, by with_unfolding_all decide,
    by with_unfolding_all decide, rfl, fun q h1 h2 => ?_⟩
  rw [formatVolume_num, fvCore_some, if_pos ⟨h1, h2⟩]

/-- Witness for C4's general clause at the concrete raw value 250. -/
theorem formatVolume_canonical_witness :
    (1 : Rat) ≤ 250 ∧ (250 : Rat) < 1000
    ∧ formatVolume (JVal.num 250) = intToDigits (jsRound 250) ++ lit ("K+") :=
  ⟨by norm_num, by norm_num,
   formatVolume_canonical.2.2.2.2 250 (by norm_num) (by norm_num)⟩

/-! ### Claim C8 -/

/-- Claim C8: a malformed volume value — a string that `Number` cannot
parse (after comma stripping) and that carries no K/M/B suffix — passes
through `formatVolume` unmodified and maps to 0 under `volumeToNumber`. -/
theorem volume_malformed_passthrough : ∀ s : JStr,
    endsKMBci (jsTrim s) = false →
    jsNumber (stripCommas s) = none →
    formatVolume (JVal.str s) = s ∧ volumeToNumber (JVal.str s) = 0 := by
  intro s hci hnan
  constructor
  · rw [formatVolume_str, if_neg (by rw [endsKMB_false_of_ci hci]; simp), hnan, fvCore_none]
  · rw [volumeToNumber_str, parseKMB_none_of_endsKMBci_false hci,
      jsNumber_stripCommas_jsTrim, hnan]

/-- Witness for C8 at the concrete malformed input `"abc"`. -/
theorem volume_malformed_passthrough_witness :
    endsKMBci (jsTrim (lit ("abc"))) = false
    ∧ jsNumber (stripCommas (lit ("abc"))) = none
    ∧ formatVolume (JVal.str (lit ("abc"))) = lit ("abc")
    ∧ volumeToNumber (JVal.str (lit ("abc"))) = 0 :=
  ⟨by decide, by decide,
   (volume_malformed_passthrough (lit ("abc")) (by decide) (by decide)).1,
   (volume_malformed_passthrough (lit ("abc")) (by decide) (by decide)).2⟩

/-! ### Normalizer lemmas -/

theorem tget_mem {κ α : Type} [DecidableEq κ] :
    ∀ (t : List (κ × α)) (k : κ) (v : α), tget t k = some v → (k, v) ∈ t := by
  intro t
  induction t with
  | nil => intro k v h; simp [tget] at h
  | cons p rest ih =>
    obtain ⟨a, b⟩ := p
    intro k v h
    rw [show tget ((a, b) :: rest) k = if k = a then some b else tget rest k from rfl] at h
    by_cases hk : k = a
    · rw [if_pos hk] at h
      have hbv : b = v := by injection h
      subst hk
      subst hbv
      exact List.mem_cons_self _ _
    · rw [if_neg hk] at h
      exact List.mem_cons_of_mem _ (ih k v h)

theorem nfdTable_ok :
    ∀ p ∈ nfdTable, stableChar (toLowerChar p.2.1) = true ∧ isMark p.2.2 = true := by
  decide

theorem lowerTable_ok : ∀ p ∈ lowerTable, stableChar p.2 = true := by
  decide

theorem stableChar_iff {c : Char} : stableChar c = true ↔
    (nfdChar c = [c] ∧ isMark c = false ∧ toLowerChar c = c) := by
  unfold stableChar
  simp [Bool.and_eq_true, Bool.not_eq_true', and_assoc]

theorem stableSpace : stableChar ' ' = true := by decide

theorem stable_of_pipeline {c d : Char} (hd : d ∈ nfdChar c) (hm : isMark d = false) :
    stableChar (toLowerChar d) = true := by
  cases htg : tget nfdTable c with
  | some bm =>
    rw [show nfdChar c = [bm.1, bm.2] from by simp [nfdChar, htg]] at hd
    have hfact := nfdTable_ok (c, bm) (tget_mem nfdTable c bm htg)
    rcases (by simpa using hd : d = bm.1 ∨ d = bm.2) with h | h
    · exact h ▸ hfact.1
    · rw [h, hfact.2] at hm
      cases hm
  | none =>
    rw [show nfdChar c = [c] from by simp [nfdChar, htg]] at hd
    have hdc : d = c := by simpa using hd
    subst hdc
    cases hlg : tget lowerTable d with
    | some l =>
      rw [show toLowerChar d = l from by simp [toLowerChar, hlg]]
      exact lowerTable_ok (d, l) (tget_mem lowerTable d l hlg)
    | none =>
      rw [show toLowerChar d = d from by simp [toLowerChar, hlg]]
      rw [stableChar_iff]
      exact ⟨by simp [nfdChar, htg], hm, by simp [toLowerChar, hlg]⟩

theorem toLowerChar_idem (c : Char) : toLowerChar (toLowerChar c) = toLowerChar c := by
  cases hlg : tget lowerTable c with
  | some l =>
    rw [show toLowerChar c = l from by simp [toLowerChar, hlg]]
    exact (stableChar_iff.mp (lowerTable_ok (c, l) (tget_mem lowerTable c l hlg))).2.2
  | none =>
    rw [show toLowerChar c = c from by simp [toLowerChar, hlg]]
    simp [toLowerChar, hlg]

theorem mem_nfdExpand {d : Char} : ∀ {s : List Char},
    d ∈ nfdExpand s → ∃ c ∈ s, d ∈ nfdChar c := by
  intro s
  induction s with
  | nil => intro h; simp [nfdExpand] at h
  | cons c rest ih =>
    intro h
    rw [show nfdExpand (c :: rest) = nfdChar c ++ nfdExpand rest from rfl] at h
    rcases List.mem_append.mp h with h | h
    · exact ⟨c, List.mem_cons_self c rest, h⟩
    · obtain ⟨c2, hc2, hd2⟩ := ih h
      exact ⟨c2, List.mem_cons_of_mem c hc2, hd2⟩

theorem nfdLower_stable (s : List Char) : ∀ e ∈ nfdLower s, stableChar e = true := by
  intro e he
  unfold nfdLower at he
  rcases List.mem_map.mp he with ⟨d, hd, rfl⟩
  have hd2 := List.mem_filter.mp hd
  have hm : isMark d = false := by simpa using hd2.2
  obtain ⟨c, _, hdc⟩ := mem_nfdExpand hd2.1
  exact stable_of_pipeline hdc hm

theorem nfdExpand_of_stable : ∀ {X : List Char}, (∀ e ∈ X, stableChar e = true) →
    nfdExpand X = X := by
  intro X
  induction X with
  | nil => intro _; rfl
  | cons c rest ih =>
    intro h
    show nfdChar c ++ nfdExpand rest = c :: rest
    rw [(stableChar_iff.mp (h c (List.mem_cons_self c rest))).1,
      ih (fun e he => h e (List.mem_cons_of_mem c he))]
    rfl

theorem filter_marks_of_stable : ∀ {X : List Char}, (∀ e ∈ X, stableChar e = true) →
    X.filter (fun c => !isMark c) = X := by
  intro X
  induction X with
  | nil => intro _; rfl
  | cons c rest ih =>
    intro h
    rw [List.filter_cons,
      if_pos (by rw [(stableChar_iff.mp (h c (List.mem_cons_self c rest))).2.1]; rfl),
      ih (fun e he => h e (List.mem_cons_of_mem c he))]

theorem map_lower_of_fixed : ∀ {X : List Char}, (∀ e ∈ X, toLowerChar e = e) →
    X.map toLowerChar = X := by
  intro X
  induction X with
  | nil => intro _; rfl
  | cons c rest ih =>
    intro h
    rw [List.map_cons, h c (List.mem_cons_self c rest),
      ih (fun e he => h e (List.mem_cons_of_mem c he))]

theorem nfdLower_of_stable {X : List Char} (h : ∀ e ∈ X, stableChar e = true) :
    nfdLower X = X := by
  unfold nfdLower
  rw [nfdExpand_of_stable h, filter_marks_of_stable h,
    map_lower_of_fixed (fun e he => (stableChar_iff.mp (h e he)).2.2)]

theorem collapseWs_single (c : Char) :
    collapseWs [c] = if wsChar c = true then [' '] else [c] := rfl

theorem collapseWs_cons2 (c d : Char) (rest : List Char) :
    collapseWs (c :: d :: rest) =
      if (wsChar c && wsChar d) = true then collapseWs (d :: rest)
      else (if wsChar c = true then ' ' else c) :: collapseWs (d :: rest) := rfl

theorem mem_collapseWs {e : Char} : ∀ {s : List Char},
    e ∈ collapseWs s → e ∈ s ∨ e = ' ' := by
  intro s
  induction s with
  | nil => intro h; cases h
  | cons c rest ih =>
    intro h
    cases rest with
    | nil =>
      rw [collapseWs_single] at h
      by_cases hw : wsChar c = true
      · rw [if_pos hw] at h
        exact Or.inr (by simpa using h)
      · rw [if_neg hw] at h
        exact Or.inl (by simpa using h)
    | cons d tl =>
      rw [collapseWs_cons2] at h
      by_cases hcd : (wsChar c && wsChar d) = true
      · rw [if_pos hcd] at h
        rcases ih h with h2 | h2
        · exact Or.inl (List.mem_cons_of_mem c h2)
        · exact Or.inr h2
      · rw [if_neg hcd] at h
        rcases List.mem_cons.mp h with h2 | h2
        · by_cases hw : wsChar c = true
          · rw [if_pos hw] at h2
            exact Or.inr h2
          · rw [if_neg hw] at h2
            exact Or.inl (h2 ▸ List.mem_cons_self c _)
        · rcases ih h2 with h3 | h3
          · exact Or.inl (List.mem_cons_of_mem c h3)
          · exact Or.inr h3

theorem mem_trimL {e : Char} : ∀ {s : List Char}, e ∈ trimL s → e ∈ s := by
  intro s
  induction s with
  | nil => intro h; exact h
  | cons c rest ih =>
    intro h
    rw [trimL_cons] at h
    by_cases hw : wsChar c = true
    · rw [if_pos hw] at h
      exact List.mem_cons_of_mem c (ih h)
    · rw [if_neg hw] at h
      exact h

theorem mem_trimR {e : Char} : ∀ {s : List Char}, e ∈ trimR s → e ∈ s := by
  intro s
  induction s with
  | nil => intro h; exact h
  | cons c rest ih =>
    intro h
    rw [trimR_cons] at h
    by_cases hcr : trimR rest = [] ∧ wsChar c = true
    · rw [if_pos hcr] at h
      cases h
    · rw [if_neg hcr] at h
      rcases List.mem_cons.mp h with h2 | h2
      · exact h2 ▸ List.mem_cons_self c rest
      · exact List.mem_cons_of_mem c (ih h2)

theorem mem_jsTrim {e : Char} {s : List Char} (h : e ∈ jsTrim s) : e ∈ s :=
  mem_trimL (mem_trimR h)

theorem collapseWs_head {d : Char} (rest : List Char) (h : wsChar d = false) :
    ∃ tl, collapseWs (d :: rest) = d :: tl := by
  cases rest with
  | nil =>
    exact ⟨[], by rw [collapseWs_single, if_neg (by simp [h])]⟩
  | cons e tl =>
    exact ⟨collapseWs (e :: tl),
      by rw [collapseWs_cons2, if_neg (by simp [h]), if_neg (by simp [h])]⟩

theorem collapseWs_ne_nil : ∀ {s : List Char}, s ≠ [] → collapseWs s ≠ [] := by
  intro s
  induction s with
  | nil => intro h; exact absurd rfl h
  | cons c rest ih =>
    intro _
    cases rest with
    | nil =>
      rw [collapseWs_single]
      by_cases hw : wsChar c = true
      · rw [if_pos hw]; simp
      · rw [if_neg hw]; simp
    | cons d tl =>
      rw [collapseWs_cons2]
      by_cases hcd : (wsChar c && wsChar d) = true
      · rw [if_pos hcd]
        exact ih (by simp)
      · rw [if_neg hcd]; simp

theorem lastChar_cons {c : Char} {t : List Char} (h : t ≠ []) :
    lastChar (c :: t) = lastChar t := by
  cases t with
  | nil => exact absurd rfl h
  | cons d tl => rfl

theorem collapseWs_last : ∀ {W : List Char},
    (∀ e2, lastChar W = some e2 → wsChar e2 = false) →
    ∀ e, lastChar (collapseWs W) = some e → wsChar e = false := by
  intro W
  induction W with
  | nil => intro _ e he; cases he
  | cons c rest ih =>
    intro h e he
    cases rest with
    | nil =>
      by_cases hw : wsChar c = true
      · exact absurd (h c rfl) (by simp [hw])
      · rw [collapseWs_single, if_neg hw] at he
        have hec : e = c := by
          have h5 : some c = some e := he
          exact (Option.some_inj.mp h5).symm
        subst hec
        simpa using hw
    | cons d tl =>
      have hlast : ∀ e2, lastChar (d :: tl) = some e2 → wsChar e2 = false := by
        intro e2 he2
        exact h e2 (by rw [lastChar_cons (by simp)]; exact he2)
      rw [collapseWs_cons2] at he
      by_cases hcd : (wsChar c && wsChar d) = true
      · rw [if_pos hcd] at he
        exact ih hlast e he
      · rw [if_neg hcd] at he
        have hne : collapseWs (d :: tl) ≠ [] := collapseWs_ne_nil (by simp)
        rw [lastChar_cons hne] at he
        exact ih hlast e he

theorem wellSpaced_single (c : Char) : wellSpaced [c] = (!wsChar c || c = ' ') := rfl

theorem wellSpaced_cons2 (c d : Char) (rest : List Char) :
    wellSpaced (c :: d :: rest) =
      ((!wsChar c || (c = ' ' && !wsChar d)) && wellSpaced (d :: rest)) := rfl

theorem collapseWs_wellSpaced : ∀ s : List Char, wellSpaced (collapseWs s) = true := by
  intro s
  induction s with
  | nil => rfl
  | cons c rest ih =>
    cases rest with
    | nil =>
      rw [collapseWs_single]
      by_cases hw : wsChar c = true
      · rw [if_pos hw]; decide
      · have hw' : wsChar c = false := by
          cases hcc : wsChar c
          · rfl
          · exact absurd hcc hw
        rw [if_neg hw, wellSpaced_single, hw']
        rfl
    | cons d tl =>
      rw [collapseWs_cons2]
      by_cases hcd : (wsChar c && wsChar d) = true
      · rw [if_pos hcd]
        exact ih
      · rw [if_neg hcd]
        by_cases hw : wsChar c = true
        · have hd : wsChar d = false := by
            cases hdd : wsChar d
            · rfl
            · exact absurd (by rw [hw, hdd]; rfl : (wsChar c && wsChar d) = true) hcd
          obtain ⟨tl2, htl2⟩ := collapseWs_head tl hd
          rw [if_pos hw, htl2, wellSpaced_cons2]
          have hws2 : wellSpaced (d :: tl2) = true := by rw [← htl2]; exact ih
          rw [hws2, hd]
          decide
        · have hw' : wsChar c = false := by
            cases hcc : wsChar c
            · rfl
            · exact absurd hcc hw
          rw [if_neg hw]
          have hne : collapseWs (d :: tl) ≠ [] := collapseWs_ne_nil (by simp)
          cases hz : collapseWs (d :: tl) with
          | nil => exact absurd hz hne
          | cons z zs =>
            rw [wellSpaced_cons2]
            have hws2 : wellSpaced (z :: zs) = true := by rw [← hz]; exact ih
            rw [hws2, hw']
            simp

theorem collapseWs_of_wellSpaced : ∀ {s : List Char}, wellSpaced s = true →
    collapseWs s = s := by
  intro s
  induction s with
  | nil => intro _; rfl
  | cons c rest ih =>
    intro h
    cases rest with
    | nil =>
      rw [collapseWs_single]
      rw [wellSpaced_single] at h
      by_cases hw : wsChar c = true
      · have hc : c = ' ' := by simpa [hw] using h
        rw [if_pos hw, hc]
      · rw [if_neg hw]
    | cons d tl =>
      rw [wellSpaced_cons2, Bool.and_eq_true] at h
      rw [collapseWs_cons2]
      by_cases hw : wsChar c = true
      · have h1 : c = ' ' ∧ wsChar d = false := by
          simpa [hw, Bool.and_eq_true, Bool.not_eq_true'] using h.1
        rw [if_neg (by simp [h1.2]), if_pos hw, h1.1, ih h.2]
      · have hw' : wsChar c = false := by
          cases hcc : wsChar c
          · rfl
          · exact absurd hcc hw
        rw [if_neg (by simp [hw']), if_neg hw, ih h.2]

theorem trimL_of_head {s : List Char}
    (h : s = [] ∨ ∃ d tl, s = d :: tl ∧ wsChar d = false) : trimL s = s := by
  rcases h with rfl | ⟨d, tl, rfl, hd⟩
  · rfl
  · rw [trimL_cons, if_neg (by simp [hd])]

theorem trimR_of_last : ∀ {s : List Char},
    (∀ e, lastChar s = some e → wsChar e = false) → trimR s = s := by
  intro s
  induction s with
  | nil => intro _; rfl
  | cons c rest ih =>
    intro h
    cases rest with
    | nil =>
      have hc : wsChar c = false := h c rfl
      rw [trimR_cons, if_neg (fun hand => by rw [hc] at hand; exact absurd hand.2 (by simp))]
      rfl
    | cons d tl =>
      have hlast : ∀ e, lastChar (d :: tl) = some e → wsChar e = false := fun e he =>
        h e (by rw [lastChar_cons (by simp)]; exact he)
      rw [trimR_cons, ih hlast, if_neg (fun hand => absurd hand.1 (List.cons_ne_nil d tl))]

theorem trimL_head_shape : ∀ s : List Char,
    trimL s = [] ∨ ∃ d tl, trimL s = d :: tl ∧ wsChar d = false := by
  intro s
  induction s with
  | nil => exact Or.inl rfl
  | cons c rest ih =>
    by_cases hw : wsChar c = true
    · rw [trimL_cons, if_pos hw]
      exact ih
    · have hw' : wsChar c = false := by
        cases hcc : wsChar c
        · rfl
        · exact absurd hcc hw
      exact Or.inr ⟨c, rest, by rw [trimL_cons, if_neg hw], hw'⟩

theorem trimR_last_nonWs : ∀ (s : List Char) (e : Char),
    lastChar (trimR s) = some e → wsChar e = false := by
  intro s
  induction s with
  | nil => intro e he; cases he
  | cons c rest ih =>
    intro e he
    rw [trimR_cons] at he
    by_cases hcr : trimR rest = [] ∧ wsChar c = true
    · rw [if_pos hcr] at he
      cases he
    · rw [if_neg hcr] at he
      cases htr : trimR rest with
      | nil =>
        have hc : wsChar c = false := by
          cases hcc : wsChar c
          · rfl
          · exact absurd ⟨htr, hcc⟩ hcr
        rw [htr] at he
        have hec : e = c := by
          have h5 : some c = some e := he
          exact (Option.some_inj.mp h5).symm
        subst hec
        exact hc
      | cons z zs =>
        rw [htr, lastChar_cons (by simp)] at he
        exact ih e (by rw [htr]; exact he)

theorem jsTrim_head_shape (s : List Char) :
    jsTrim s = [] ∨ ∃ d tl, jsTrim s = d :: tl ∧ wsChar d = false := by
  unfold jsTrim
  rcases trimL_head_shape s with h | ⟨d, tl, h, hd⟩
  · rw [h]
    exact Or.inl rfl
  · rw [h, trimR_cons]
    by_cases hcr : trimR tl = [] ∧ wsChar d = true
    · rw [if_pos hcr]
      exact Or.inl rfl
    · rw [if_neg hcr]
      exact Or.inr ⟨d, trimR tl, rfl, hd⟩

theorem jsTrim_last_nonWs (s : List Char) (e : Char) :
    lastChar (jsTrim s) = some e → wsChar e = false :=
  trimR_last_nonWs (trimL s) e

theorem normalize_eq (s : List Char) :
    normalize s = collapseWs (jsTrim (nfdLower s)) := rfl

theorem normalize_fix (s : List Char) : normalize (normalize s) = normalize s := by
  have hstable : ∀ e ∈ normalize s, stableChar e = true := by
    intro e he
    rw [normalize_eq] at he
    rcases mem_collapseWs he with h | h
    · exact nfdLower_stable s e (mem_jsTrim h)
    · rw [h]
      exact stableSpace
  have h2 : trimL (normalize s) = normalize s := by
    apply trimL_of_head
    rcases jsTrim_head_shape (nfdLower s) with h | ⟨d, tl, h, hd⟩
    · left
      rw [normalize_eq, h]
      rfl
    · right
      obtain ⟨tl2, htl2⟩ := collapseWs_head tl hd
      exact ⟨d, tl2, by rw [normalize_eq, h, htl2], hd⟩
  have h3 : trimR (normalize s) = normalize s := by
    apply trimR_of_last
    intro e he
    rw [normalize_eq] at he
    exact collapseWs_last (jsTrim_last_nonWs (nfdLower s)) e he
  have h4 : collapseWs (normalize s) = normalize s := by
    rw [normalize_eq]
    exact collapseWs_of_wellSpaced (collapseWs_wellSpaced _)
  conv_lhs => rw [normalize_eq (normalize s)]
  rw [nfdLower_of_stable hstable]
  show collapseWs (trimR (trimL (normalize s))) = normalize s
  rw [h2, h3, h4]

theorem normalizeP0_eq (s : List Char) :
    normalizeP0 s = collapseWs (jsTrim (s.map toLowerChar)) := rfl

theorem normalizeP0_fix (s : List Char) : normalizeP0 (normalizeP0 s) = normalizeP0 s := by
  have hfix : ∀ e ∈ normalizeP0 s, toLowerChar e = e := by
    intro e he
    rw [normalizeP0_eq] at he
    rcases mem_collapseWs he with h | h
    · rcases List.mem_map.mp (mem_jsTrim h) with ⟨d, _, rfl⟩
      exact toLowerChar_idem d
    · rw [h]
      decide
  have h2 : trimL (normalizeP0 s) = normalizeP0 s := by
    apply trimL_of_head
    rcases jsTrim_head_shape (s.map toLowerChar) with h | ⟨d, tl, h, hd⟩
    · left
      rw [normalizeP0_eq, h]
      rfl
    · right
      obtain ⟨tl2, htl2⟩ := collapseWs_head tl hd
      exact ⟨d, tl2, by rw [normalizeP0_eq, h, htl2], hd⟩
  have h3 : trimR (normalizeP0 s) = normalizeP0 s := by
    apply trimR_of_last
    intro e he
    rw [normalizeP0_eq] at he
    exact collapseWs_last (jsTrim_last_nonWs (s.map toLowerChar)) e he
  have h4 : collapseWs (normalizeP0 s) = normalizeP0 s := by
    rw [normalizeP0_eq]
    exact collapseWs_of_wellSpaced (collapseWs_wellSpaced _)
  conv_lhs => rw [normalizeP0_eq (normalizeP0 s)]
  rw [map_lower_of_fixed hfix]
  show collapseWs (trimR (trimL (normalizeP0 s))) = normalizeP0 s
  rw [h2, h3, h4]

/-! ### Claim C6 (corrected) -/

/-- Counterexample to claim C6 as stated: the part_000 `normalize` (also
cited by the claim) does not strip diacritics, so the spec's example fails
for it — `normalize("Αθήνα  ")` keeps the tonos and differs from
`normalize("αθηνα")`. -/
theorem normalizeP0_diacritic_sensitive :
    normalizeP0 (lit ("Αθήνα  ")) ≠ normalizeP0 (lit ("αθηνα")) := by decide

/-- Claim C6 as amended: the src/index.js `normalize` is total (null and
empty input give the empty string) and idempotent, and is
case/diacritic/whitespace-insensitive on the spec's example; the part_000
variant is still total and idempotent but keeps diacritics. -/
theorem normalize_total_idempotent :
    normalizeJ none = []
    ∧ normalize [] = []
    ∧ (∀ s : JStr, normalize (normalize s) = normalize s)
    ∧ normalize (lit ("Αθήνα  ")) = normalize (lit ("αθηνα"))
    ∧ (∀ s : JStr, normalizeP0 (normalizeP0 s) = normalizeP0 s) :=
  ⟨rfl, rfl, normalize_fix, by decide, normalizeP0_fix⟩

/-! ### Claim C5 -/

theorem unitVal_K : unitVal 'K' = 1000 := rfl

theorem unitVal_M : unitVal 'M' = 1000000 := rfl

theorem unitVal_B : unitVal 'B' = 1000000000 := rfl

theorem lit_KPlus : lit ("K+") = ['K', '+'] := rfl

theorem lit_MPlus : lit ("M+") = ['M', '+'] := rfl

theorem lit_BPlus : lit ("B+") = ['B', '+'] := rfl

theorem one_le_div_of_le {q u : Rat} (hu : 0 < u) (h : u ≤ q) : (1 : Rat) ≤ q / u := by
  rw [le_div_iff₀ hu, one_mul]
  exact h

/-- Claim C5: for every integer raw value `x` in `[1, 1e12)`,
`volumeToNumber (formatVolume x)` equals the heuristic-adjusted magnitude
of `x`: `x * 1000` when `x ∈ [1,1000)` (the shared small-integer
heuristic), and otherwise `x` rounded to its K/M/B unit. -/
theorem volume_round_trip : ∀ x : Nat, 1 ≤ x → x < 1000000000000 →
    volumeToNumber (JVal.str (formatVolume (JVal.num (x : Rat)))) =
      (if x < 1000 then (x : Rat) * 1000
       else if x < 1000000 then (jsRound ((x : Rat) / 1000) : Rat) * 1000
       else if x < 1000000000 then (jsRound ((x : Rat) / 1000000) : Rat) * 1000000
       else (jsRound ((x : Rat) / 1000000000) : Rat) * 1000000000) := by
  intro x h1 h12
  rw [formatVolume_num, fvCore_some]
  by_cases hA : x < 1000
  · rw [if_pos (show (1 : Rat) ≤ (x : Rat) ∧ (x : Rat) < 1000 from
      ⟨by exact_mod_cast h1, by exact_mod_cast hA⟩)]
    rw [lit_KPlus, jsRound_natCast x,
      volumeToNumber_intToDigits (x : Int) (by positivity) 'K' (Or.inl rfl),
      unitVal_K, if_pos hA]
    push_cast
    ring
  · have hA1 : ¬((1 : Rat) ≤ (x : Rat) ∧ (x : Rat) < 1000) := by
      rintro ⟨_, hlt⟩
      exact hA (by exact_mod_cast hlt)
    rw [if_neg hA1]
    by_cases hB : x < 1000000
    · have hB1 : ¬((1000000000 : Rat) ≤ (x : Rat)) := by
        intro hcon
        have : (1000000000 : Nat) ≤ x := by exact_mod_cast hcon
        omega
      have hB2 : ¬((1000000 : Rat) ≤ (x : Rat)) := by
        intro hcon
        have : (1000000 : Nat) ≤ x := by exact_mod_cast hcon
        omega
      have hB3 : (1000 : Rat) ≤ (x : Rat) := by exact_mod_cast (by omega : 1000 ≤ x)
      rw [if_neg hB1, if_neg hB2, if_pos hB3, lit_KPlus,
        volumeToNumber_intToDigits _ (by
          have := jsRound_pos (one_le_div_of_le (by norm_num) hB3)
          omega) 'K' (Or.inl rfl),
        unitVal_K, if_neg hA, if_pos hB]
    · by_cases hC : x < 1000000000
      · have hC1 : ¬((1000000000 : Rat) ≤ (x : Rat)) := by
          intro hcon
          have : (1000000000 : Nat) ≤ x := by exact_mod_cast hcon
          omega
        have hC2 : (1000000 : Rat) ≤ (x : Rat) := by exact_mod_cast (by omega : 1000000 ≤ x)
        rw [if_neg hC1, if_pos hC2, lit_MPlus,
          volumeToNumber_intToDigits _ (by
            have := jsRound_pos (one_le_div_of_le (by norm_num) hC2)
            omega) 'M' (Or.inr (Or.inl rfl)),
          unitVal_M, if_neg hA, if_neg hB, if_pos hC]
      · have hD1 : (1000000000 : Rat) ≤ (x : Rat) := by
          exact_mod_cast (by omega : 1000000000 ≤ x)
        rw [if_pos hD1, lit_BPlus,
          volumeToNumber_intToDigits _ (by
            have := jsRound_pos (one_le_div_of_le (by norm_num) hD1)
            omega) 'B' (Or.inr (Or.inr rfl)),
          unitVal_B, if_neg hA, if_neg hB, if_neg hC]

/-- Witness for C5 at the concrete raw value 500: the round trip yields
500 × 1000. -/
theorem volume_round_trip_witness :
    volumeToNumber (JVal.str (formatVolume (JVal.num (500 : Nat)))) = 500000 := by
  have h := volume_round_trip 500 (by norm_num) (by norm_num)
  rw [if_pos (by norm_num)] at h
  rw [show ((500 : Nat) : Rat) = (500 : Rat) by norm_num] at h ⊢
  rw [h]
  norm_num

/-! ### Claim C1 -/

/-- Claim C1: in the part_000 run, `shouldNotify` (the `newOnes.length ===
0` gate) is true iff some current item's normalized key is absent from the
pre-run seen-set snapshot, and when it is false the run completes silently:
the Notifier is invoked zero times and the run is not an error. -/
theorem p0_notify_gate : ∀ (nowGr : JStr) (maxItems : Nat) (seen : Finset JStr)
    (items : List P0Item),
    (p0shouldNotify seen (items.take maxItems) = true ↔
      ∃ it ∈ items.take maxItems, normalizeP0 it.title ∉ seen)
    ∧ (p0shouldNotify seen (items.take maxItems) = false →
      p0main nowGr maxItems (Except.ok seen) items = P0Run.silent seen ∧
      notifierCalls (p0main nowGr maxItems (Except.ok seen) items) = 0) := by
  intro nowGr maxItems seen items
  have hiff : p0shouldNotify seen (items.take maxItems) = true ↔
      ∃ it ∈ items.take maxItems, normalizeP0 it.title ∉ seen := by
    unfold p0shouldNotify p0newOnes
    rw [decide_eq_true_iff, filter_ne_nil_iff]
    constructor
    · rintro ⟨e, he, hnew⟩
      rcases List.mem_map.mp he with ⟨it, hit, rfl⟩
      refine ⟨it, hit, ?_⟩
      simpa [p0enrich] using hnew
    · rintro ⟨it, hit, hnew⟩
      exact ⟨p0enrich seen it, List.mem_map.mpr ⟨it, hit, rfl⟩, by simpa [p0enrich]⟩
  refine ⟨hiff, fun hfalse => ?_⟩
  have hnil : p0newOnes seen (items.take maxItems) = [] := by
    unfold p0shouldNotify at hfalse
    simpa using of_decide_eq_false hfalse
  have hmain : p0main nowGr maxItems (Except.ok seen) items = P0Run.silent seen := by
    rw [p0main_ok, hnil]
    rfl
  exact ⟨hmain, by rw [hmain]; rfl⟩

/-- Witness for C1 at a concrete input: with both demo keys already seen,
the gate is false and the run is silent with zero Notifier calls. -/
theorem p0_notify_gate_witness :
    p0main demoNow 20 (Except.ok p0demoSeenAll) p0demoItems = P0Run.silent p0demoSeenAll ∧
    notifierCalls (p0main demoNow 20 (Except.ok p0demoSeenAll) p0demoItems) = 0 :=
  (p0_notify_gate demoNow 20 p0demoSeenAll p0demoItems).2 (by decide)

/-! ### Claim C2 (corrected) -/

/-- Counterexample to claim C2 as stated: with two feed items and a failing
store read, the part_000 run does not send the baseline notification at
all — it fails and posts the failure payload instead. -/
theorem p0_store_fail_counterexample :
    baselineSent (p0main demoNow 20 (Except.error (lit ("ECONNREFUSED"))) p0demoItems) = false
    ∧ p0main demoNow 20 (Except.error (lit ("ECONNREFUSED"))) p0demoItems
      = P0Run.failed (p0failBlocks (lit ("ECONNREFUSED"))) p0failText :=
  ⟨rfl, rfl⟩

/-- Claim C2 as amended: the part_000 variant is strict, not degraded — a
failing seen-set store read aborts the run before any item is marked, the
baseline notification is not sent, the failure payload is posted instead,
and no store write happens. -/
theorem p0_store_read_failure_strict : ∀ (nowGr : JStr) (maxItems : Nat) (e : JStr)
    (items : List P0Item),
    p0main nowGr maxItems (Except.error e) items = P0Run.failed (p0failBlocks e) p0failText
    ∧ baselineSent (p0main nowGr maxItems (Except.error e) items) = false
    ∧ postSeenOf (p0main nowGr maxItems (Except.error e) items) = none := by
  intro nowGr maxItems e items
  exact ⟨rfl, rfl, rfl⟩

/-! ### Claim C3 -/

/-- Claim C3: the part_000 (additive) run only grows the seen set — the
post-run seen set is a superset of the pre-run snapshot whenever the run
reaches the store — and an item whose normalized key is already in the
snapshot is never marked new. -/
theorem p0_seen_additive : ∀ (nowGr : JStr) (maxItems : Nat) (seen : Finset JStr)
    (items : List P0Item),
    (∀ post, postSeenOf (p0main nowGr maxItems (Except.ok seen) items) = some post →
      seen ⊆ post)
    ∧ (∀ it ∈ items.take maxItems, normalizeP0 it.title ∈ seen →
      (p0enrich seen it).isNew = false) := by
  intro nowGr maxItems seen items
  constructor
  · intro post hpost
    rw [p0main_ok] at hpost
    by_cases hlen : (p0newOnes seen (items.take maxItems)).length = 0
    · rw [if_pos hlen] at hpost
      rw [show post = seen from (Option.some_injective _ hpost).symm]
    · rw [if_neg hlen] at hpost
      rw [show post = seen ∪ _ from (Option.some_injective _ hpost).symm]
      exact Finset.subset_union_left
  · intro it _ hmem
    simp [p0enrich, hmem]

/-- Witness for C3 at a concrete input: a run that posts (one key new)
grows the seen set and leaves the already-seen item unmarked. -/
theorem p0_seen_additive_witness :
    p0demoSeenA ⊆ p0demoSeenA ∪ {normalizeP0 itemA.title, normalizeP0 itemB.title}
    ∧ (p0enrich p0demoSeenA itemA).isNew = false := by
  refine ⟨?_, ?_⟩
  · have h := (p0_seen_additive demoNow 20 p0demoSeenA p0demoItems).1
    have hrun : postSeenOf (p0main demoNow 20 (Except.ok p0demoSeenA) p0demoItems) =
        some (p0demoSeenA ∪ {normalizeP0 itemA.title, normalizeP0 itemB.title}) := by decide
    exact h _ hrun
  · exact (p0_seen_additive demoNow 20 p0demoSeenA p0demoItems).2 itemA (by decide) (by decide)

/-! ### Claim C7 -/

/-- Claim C7: the merge of src/index.js main is a left-outer join — the
merged list has exactly one row per baseline item, in order and keeping
every baseline title, and a row whose normalized key is absent from the
enrichment map gets the placeholder volume `"—"` and numeric volume 0. -/
theorem mergeRows_left_outer_join : ∀ (volMap : List (JStr × Enrich)) (rssTop : List RssItem),
    (mergeRows volMap rssTop).map Row.title = rssTop.map RssItem.title
    ∧ ∀ row ∈ mergeRows volMap rssTop,
      tget volMap (normalize row.title) = none →
      row.volume = emDash ∧ row.volumeNum = 0 := by
  intro volMap rssTop
  constructor
  · unfold mergeRows
    rw [List.map_map]
    exact List.map_congr_left (fun r _ => rowOf_title volMap r)
  · intro row hrow hnone
    rcases List.mem_map.mp hrow with ⟨r, _, rfl⟩
    rw [rowOf_title] at hnone
    unfold rowOf
    rw [hnone]
    exact ⟨rfl, rfl⟩

/-- Witness for C7 at a concrete input: with an empty enrichment map the
single baseline row is kept and receives the placeholders. -/
theorem mergeRows_left_outer_join_witness :
    (rowOf [] demoRssItem).volume = emDash ∧ (rowOf [] demoRssItem).volumeNum = 0 :=
  (mergeRows_left_outer_join [] [demoRssItem]).2 (rowOf [] demoRssItem)
    (List.mem_map.mpr ⟨demoRssItem, by decide, rfl⟩) rfl

/-! ### Claim C9 -/

/-- Claim C9: the formatter is deterministic — two invocations of
buildBlocks on the same row list under a frozen clock (equal clock
readings rendered by the same fixed formatter) produce identical payloads;
the invocation relation writes no state. -/
theorem buildBlocks_deterministic : ∀ (fmt : Int → JStr) (c1 c2 : Clock) (rows : List Row)
    (out1 out2 : List Block),
    c1.nowMs = c2.nowMs →
    BuildBlocksCall fmt c1 rows out1 → BuildBlocksCall fmt c2 rows out2 → out1 = out2 := by
  intro fmt c1 c2 rows out1 out2 hEq h1 h2
  cases h1
  cases h2
  rw [hEq]

/-- Witness for C9: two invocations at the same concrete clock yield the
same payload. -/
theorem buildBlocks_deterministic_witness :
    buildBlocks demoRows (demoFmt demoClock.nowMs) = buildBlocks demoRows (demoFmt demoClock.nowMs) :=
  buildBlocks_deterministic demoFmt demoClock demoClock demoRows _ _ rfl
    (BuildBlocksCall.callStep demoClock demoRows) (BuildBlocksCall.callStep demoClock demoRows)

/-! ### Claim C10 -/

/-- Claim C10: for any string and any column width `len ≥ 1`, `pad`
returns exactly `len` characters — the first `len - 1` characters plus an
ellipsis when the string is at least `len` long, the string right-padded
with spaces otherwise. -/
theorem pad_exact_width : ∀ (s : JStr) (len : Nat), 1 ≤ len →
    (pad s len).length = len
    ∧ (len ≤ s.length → pad s len = s.take (len - 1) ++ ['…'])
    ∧ (s.length < len → pad s len = s ++ List.replicate (len - s.length) ' ') := by
  intro s len hlen
  refine ⟨?_, fun h => ?_, fun h => ?_⟩
  · unfold pad
    by_cases h : len ≤ s.length
    · rw [if_pos h]
      simp [List.length_take]
      omega
    · rw [if_neg h]
      simp
      omega
  · simp [pad, h]
  · rw [pad, if_neg (by omega)]

/-- Witness for C10 at a concrete input: a 4-character string in a width-3
column renders as exactly 3 characters ending in the ellipsis. -/
theorem pad_exact_width_witness :
    (pad (lit ("abcd")) 3).length = 3
    ∧ pad (lit ("abcd")) 3 = (lit ("abcd")).take 2 ++ ['…'] := by
  have h := pad_exact_width (lit ("abcd")) 3 (by decide)
  exact ⟨h.1, h.2.1 (by decide)⟩

end GT
